import Mathlib

/-!
Verification of the multi-domain workflow orchestrator
(`extensions/workflows/multi_domain_orchestrator.py` together with the agent
model of `extensions/agents/base.py`).

The Python source is shallowly embedded: Python dicts become association
lists with Python's update-in-place-or-append semantics, agents become total
functions producing a `TaskResult` (every concrete agent of this repository
wraps its body in `try/except` and returns a failed `TaskResult` on an
internal fault, so `execute_task` never raises), and the `while` loop of
`_execute_workflow_steps` is embedded with explicit fuel: `none` means the
loop has not finished within the given fuel.  Wall-clock fields
(`execution_time`, `total_duration`, `timestamp`) are omitted: no verified
property mentions them.
-/

namespace UnderratedVision

/-- A Python value as it appears in task data and contexts: strings, numbers,
booleans, lists and dicts.  Numbers are modelled as rationals (covers the
floats the agents produce). -/
inductive Value where
  | str : String → Value
  | num : ℚ → Value
  | bool : Bool → Value
  | list : List Value → Value
  | dict : List (String × Value) → Value
deriving Repr

/-- A Python dict, in insertion order. -/
abbrev PyDict := List (String × Value)

/-- `k in d` for a Python dict (polymorphic in the stored value, so it also
serves the `step_results` map). -/
def dictHasKey {α : Type} (d : List (String × α)) (k : String) : Bool :=
  d.any (fun p => p.1 = k)

/-- `d[k]` / `d.get(k)` for a Python dict (first matching key; keys are
unique because `dictSet` updates in place). -/
def dictGet {α : Type} (d : List (String × α)) (k : String) : Option α :=
  (d.find? (fun p => p.1 = k)).map (fun p => p.2)

/-- `d[k] = v` for a Python dict: update the existing entry in place,
otherwise append (Python dicts preserve insertion order). -/
def dictSet {α : Type} (d : List (String × α)) (k : String) (v : α) :
    List (String × α) :=
  if dictHasKey d k then
    d.map (fun p => if p.1 = k then (k, v) else p)
  else
    d ++ [(k, v)]

/-- The keys of a dict, in order. -/
def dictKeys {α : Type} (d : List (String × α)) : List String :=
  d.map (fun p => p.1)

/-- `TaskResult` from `extensions/agents/base.py` (wall-clock fields
omitted). -/
structure TaskResult where
  success : Bool
  data : Value
  confidence : ℚ
  metadata : List (String × Value)
deriving Repr

/-- `WorkflowStep` from the orchestrator module. -/
structure WorkflowStep where
  step_id : String
  agent_name : String
  task_description : String
  dependencies : List String
  expected_duration : Nat
  priority : Nat := 1
deriving Repr, DecidableEq

/-- `WorkflowType` enum from the orchestrator module. -/
inductive WorkflowType where
  | REAL_ESTATE_DEVELOPMENT
  | BUSINESS_EXPANSION
  | HEALTHCARE_FACILITY
  | MARKETING_CAMPAIGN
  | CONSTRUCTION_PROJECT
deriving Repr, DecidableEq

/-- `WorkflowResult` from the orchestrator module (wall-clock fields
omitted). -/
structure WorkflowResult where
  workflow_type : WorkflowType
  success : Bool
  step_results : List (String × TaskResult)
  summary : List (String × Value)
  recommendations : List Value
deriving Repr

/-- An agent, reduced to the one capability the orchestrator drives:
`execute_task(task, context) -> TaskResult`.  Total, because every agent in
this repository catches its internal exceptions and encodes them as a failed
`TaskResult`. -/
structure Agent where
  run : String → PyDict → TaskResult

/-- `AgentRegistry`: name-to-agent association (`register_agent` stores by
`agent.name`, last write wins; only lookup matters to the orchestrator). -/
abbrev Registry := List (String × Agent)

/-- `AgentRegistry.get_agent`: `self._agents.get(name)`. -/
def get_agent (reg : Registry) (name : String) : Option Agent :=
  (reg.find? (fun p => p.1 = name)).map (fun p => p.2)

/-- `_get_workflow_definition`: the hard-coded step lists, with
`workflows.get(workflow_type, [])` semantics — an unknown kind yields the
empty list. -/
def get_workflow_definition (workflow_type : WorkflowType) : List WorkflowStep :=
  match workflow_type with
  | .REAL_ESTATE_DEVELOPMENT =>
      [{ step_id := "market_analysis", agent_name := "real_estate_analyst",
         task_description := "Analyze market conditions and property values for development site",
         dependencies := [], expected_duration := 30 },
       { step_id := "construction_planning", agent_name := "construction_coordinator",
         task_description := "Develop construction timeline and resource requirements",
         dependencies := ["market_analysis"], expected_duration := 45 },
       { step_id := "marketing_strategy", agent_name := "marketing_strategist",
         task_description := "Create marketing strategy for property sales/leasing",
         dependencies := ["market_analysis"], expected_duration := 35 }]
  | .HEALTHCARE_FACILITY =>
      [{ step_id := "regulatory_compliance", agent_name := "medical_research_assistant",
         task_description := "Review healthcare facility regulatory requirements",
         dependencies := [], expected_duration := 40 },
       { step_id := "facility_construction", agent_name := "construction_coordinator",
         task_description := "Plan healthcare facility construction with medical requirements",
         dependencies := ["regulatory_compliance"], expected_duration := 50 },
       { step_id := "real_estate_evaluation", agent_name := "real_estate_analyst",
         task_description := "Evaluate real estate options for healthcare facility",
         dependencies := [], expected_duration := 25 },
       { step_id := "marketing_outreach", agent_name := "marketing_strategist",
         task_description := "Develop patient acquisition and community outreach strategy",
         dependencies := ["regulatory_compliance"], expected_duration := 30 }]
  | .BUSINESS_EXPANSION =>
      [{ step_id := "market_research", agent_name := "marketing_strategist",
         task_description := "Research target markets and competitive landscape",
         dependencies := [], expected_duration := 40 },
       { step_id := "location_analysis", agent_name := "real_estate_analyst",
         task_description := "Analyze potential business locations and real estate costs",
         dependencies := ["market_research"], expected_duration := 35 },
       { step_id := "facility_planning", agent_name := "construction_coordinator",
         task_description := "Plan facility modifications and construction requirements",
         dependencies := ["location_analysis"], expected_duration := 30 }]
  | .MARKETING_CAMPAIGN => []
  | .CONSTRUCTION_PROJECT => []

def enhance_context_step (previous_results : List (String × TaskResult))
    (enhanced : PyDict) (dep_step_id : String) : PyDict :=
  match dictGet previous_results dep_step_id with
  | some r => dictSet enhanced (dep_step_id ++ "_result") r.data
  | none => enhanced

/-- `_enhance_context`: copy the caller's context, then for each dependency
id present in `previous_results` set `"<depId>_result"` to that dependency's
`TaskResult.data`. -/
def enhance_context (step : WorkflowStep) (original_context : PyDict)
    (previous_results : List (String × TaskResult)) : PyDict :=
  step.dependencies.foldl (enhance_context_step previous_results) original_context

/-- The ready filter of `_execute_workflow_steps`: not yet completed and all
dependencies completed. -/
def ready_steps (workflow_steps : List WorkflowStep) (completed : List String) :
    List WorkflowStep :=
  workflow_steps.filter
    (fun step => ¬ completed.contains step.step_id ∧
                 step.dependencies.all (fun dep => completed.contains dep))

/-- Ghost record of one executor invocation: the step, the enriched context
it was handed, and the `step_results` snapshot at dispatch time. -/
structure Invocation where
  step : WorkflowStep
  context : PyDict
  snapshot : List (String × TaskResult)
deriving Repr

/-- State of the `while` loop of `_execute_workflow_steps`: the
`step_results` dict, the `completed_steps` set (as an insertion-ordered
duplicate-free list), and a ghost log of executor invocations. -/
structure LoopState where
  results : List (String × TaskResult)
  completed : List String
  log : List Invocation
deriving Repr

/-- `completed_steps.add(step_id)` (Python set add). -/
def setAdd (s : List String) (x : String) : List String :=
  if s.contains x then s else s ++ [x]

/-- The dispatch `for` of one wave: for each ready step whose agent resolves,
build the enriched context and the pending task `(step_id, coroutine)`; a
step with no registered agent is silently skipped.  Agents being pure, the
eventual awaited `TaskResult` is computed here.  Also emits the ghost
invocation records. -/
def build_tasks_step (reg : Registry) (context : PyDict)
    (results : List (String × TaskResult))
    (acc : List (String × TaskResult) × List Invocation) (step : WorkflowStep) :
    List (String × TaskResult) × List Invocation :=
  match get_agent reg step.agent_name with
  | some agent =>
      let enhanced_context := enhance_context step context results
      (acc.1 ++ [(step.step_id, agent.run step.task_description enhanced_context)],
       acc.2 ++ [{ step := step, context := enhanced_context, snapshot := results }])
  | none => acc

def build_tasks (reg : Registry) (context : PyDict) (results : List (String × TaskResult))
    (ready : List WorkflowStep) : List (String × TaskResult) × List Invocation :=
  ready.foldl (build_tasks_step reg context results) ([], [])

def record_results_step (st : LoopState) (task : String × TaskResult) : LoopState :=
  { st with results := dictSet st.results task.1 task.2,
            completed := setAdd st.completed task.1 }

/-- The await `for` of one wave: record each task's result and mark the step
completed. -/
def record_results (tasks : List (String × TaskResult)) (st : LoopState) : LoopState :=
  tasks.foldl record_results_step st

/-- The `while len(completed_steps) < len(workflow_steps)` loop of
`_execute_workflow_steps`, with explicit fuel (`none` = the loop has not
finished within `fuel` iterations).  Body: compute `ready_steps`; `break`
when empty; otherwise dispatch the wave and await its tasks, then loop. -/
def execute_steps_loop (reg : Registry) (workflow_steps : List WorkflowStep)
    (context : PyDict) : Nat → LoopState → Option LoopState
  | 0, _ => none
  | fuel + 1, st =>
    if st.completed.length < workflow_steps.length then
      let ready := ready_steps workflow_steps st.completed
      if ready.isEmpty then some st
      else
        let tl := build_tasks reg context st.results ready
        execute_steps_loop reg workflow_steps context fuel
          (record_results tl.1 { st with log := st.log ++ tl.2 })
    else some st

/-- `_execute_workflow_steps`: run the wave loop from the empty state. -/
def execute_workflow_steps (reg : Registry) (workflow_steps : List WorkflowStep)
    (context : PyDict) (fuel : Nat) : Option LoopState :=
  execute_steps_loop reg workflow_steps context fuel
    { results := [], completed := [], log := [] }

/-- Python `x[:2]` as consumed by `list.extend`: the first two elements of a
list, the first two characters of a string (as one-character strings).  Any
other operand raises `TypeError` in Python; that shape is unreachable with
this repository's agents (their `recommendations` / `risk_factors` entries
are lists of strings) and is modelled as the empty extension. -/
def pySlice2 : Value → List Value
  | .list vs => vs.take 2
  | .str s => (s.toList.take 2).map (fun c => Value.str (String.singleton c))
  | _ => []

/-- `WorkflowType.value` (the enum's string payload). -/
def WorkflowType.value : WorkflowType → String
  | .REAL_ESTATE_DEVELOPMENT => "real_estate_development"
  | .BUSINESS_EXPANSION => "business_expansion"
  | .HEALTHCARE_FACILITY => "healthcare_facility"
  | .MARKETING_CAMPAIGN => "marketing_campaign"
  | .CONSTRUCTION_PROJECT => "construction_project"

/-- `_extract_key_insights`: per successful step with dict data, a
confidence note (numeric rendering of the f-string abstracted) and the first
two entries of its `recommendations`; capped at 5. -/
def extract_key_insights (workflow_type : WorkflowType)
    (step_results : List (String × TaskResult)) : List Value :=
  let _ := workflow_type
  (step_results.foldl
    (fun insights p =>
      if p.2.success then
        match p.2.data with
        | .dict d =>
            let insights :=
              if dictHasKey d "confidence" then
                insights ++ [Value.str (p.1 ++ ": High confidence analysis")]
              else insights
            match dictGet d "recommendations" with
            | some v => insights ++ pySlice2 v
            | none => insights
        | _ => insights
      else insights)
    []).take 5

/-- `_identify_synergies`: first 3 of a fixed list. -/
def identify_synergies (step_results : List (String × TaskResult)) : List Value :=
  let _ := step_results
  ([Value.str "Real estate and construction analysis alignment ensures feasible development timeline",
    Value.str "Marketing insights inform construction design for target market appeal",
    Value.str "Regulatory compliance requirements integrated into construction planning",
    Value.str "Market analysis validates investment assumptions across all domains"]).take 3

/-- `_identify_risks`: per successful step with dict data the first two
`risk_factors`, then three fixed cross-domain risks; capped at 5. -/
def identify_risks (step_results : List (String × TaskResult)) : List Value :=
  ((step_results.foldl
    (fun risks p =>
      if p.2.success then
        match p.2.data with
        | .dict d =>
            match dictGet d "risk_factors" with
            | some v => risks ++ pySlice2 v
            | none => risks
        | _ => risks
      else risks)
    []) ++
   [Value.str "Coordination challenges between multiple specialized teams",
    Value.str "Timeline dependencies may create bottlenecks",
    Value.str "Budget allocation across domains requires careful management"]).take 5

/-- `_assess_business_impact`: fixed scores and derived average. -/
def assess_business_impact (workflow_type : WorkflowType)
    (step_results : List (String × TaskResult)) : List (String × Value) :=
  let _ := workflow_type
  let _ := step_results
  [("overall_impact_score", Value.num ((85 + 70 + 90 + 60 : ℚ) / 4)),
   ("impact_breakdown", Value.dict
      [("efficiency_gain", Value.num 85), ("risk_reduction", Value.num 70),
       ("decision_quality", Value.num 90), ("time_savings", Value.num 60)]),
   ("roi_projection", Value.str "250-300% over 12 months"),
   ("strategic_value", Value.str "High - enables data-driven decision making across domains")]

/-- `_generate_workflow_summary` (percent/float rendering abstracted to the
underlying rationals; the `total_steps > 0` and non-empty guards of the
source are kept). -/
def generate_workflow_summary (workflow_type : WorkflowType)
    (step_results : List (String × TaskResult)) (context : PyDict) :
    List (String × Value) :=
  let _ := context
  let successful_steps := (step_results.filter (fun p => p.2.success)).length
  let total_steps := step_results.length
  [("workflow_type", Value.str workflow_type.value),
   ("execution_summary", Value.dict
      [("total_steps", Value.num total_steps),
       ("successful_steps", Value.num successful_steps),
       ("success_rate",
        if total_steps > 0 then
          Value.num ((successful_steps : ℚ) / (total_steps : ℚ) * 100)
        else Value.str "0%"),
       ("average_confidence",
        if step_results.isEmpty then Value.num 0
        else Value.num ((step_results.foldl (fun s p => s + p.2.confidence) 0) /
                        (step_results.length : ℚ)))]),
   ("key_insights", Value.list (extract_key_insights workflow_type step_results)),
   ("cross_domain_synergies", Value.list (identify_synergies step_results)),
   ("risk_factors", Value.list (identify_risks step_results)),
   ("business_impact", Value.dict (assess_business_impact workflow_type step_results))]

/-- The fixed generic recommendations of `_generate_recommendations`. -/
def generic_recommendations : List Value :=
  [Value.str "Implement integrated project management system for cross-domain coordination",
   Value.str "Establish regular cross-functional team meetings for alignment",
   Value.str "Develop standardized reporting templates for consistent communication",
   Value.str "Create shared dashboard for real-time project visibility",
   Value.str "Invest in training for multi-domain collaboration skills"]

def generate_recommendations_step (recommendations : List Value)
    (p : String × TaskResult) : List Value :=
  if p.2.success then
    match p.2.data with
    | .dict d =>
        match dictGet d "recommendations" with
        | some v => recommendations ++ pySlice2 v
        | none => recommendations
    | _ => recommendations
  else recommendations

/-- `_generate_recommendations`: the generic list, extended with the first
two `recommendations` entries of each successful step with dict data, capped
at 8.  (No deduplication is performed by the source.) -/
def generate_recommendations (workflow_type : WorkflowType)
    (step_results : List (String × TaskResult)) : List Value :=
  let _ := workflow_type
  (step_results.foldl generate_recommendations_step generic_recommendations).take 8

/-- `execute_workflow`: look up the definition for the kind, run the wave
loop, and assemble the `WorkflowResult` with
`success = all(result.success for result in step_results.values())`.
`none` means the steps loop never finished (no result is ever returned).
The source's `except` handler is unreachable here: the definition lookup is
total and every agent of this repository catches its own faults, so nothing
in the `try` body raises. -/
def execute_workflow (reg : Registry) (workflow_type : WorkflowType)
    (context : PyDict) (fuel : Nat) : Option WorkflowResult :=
  let workflow_steps := get_workflow_definition workflow_type
  match execute_workflow_steps reg workflow_steps context fuel with
  | none => none
  | some st =>
      some { workflow_type := workflow_type,
             success := st.results.all (fun r => r.2.success),
             step_results := st.results,
             summary := generate_workflow_summary workflow_type st.results context,
             recommendations := generate_recommendations workflow_type st.results }

/-! ### Basic facts about the embedded dict operations -/

theorem dictHasKey_iff_mem_keys {α : Type} (d : List (String × α)) (k : String) :
    dictHasKey d k = true ↔ k ∈ dictKeys d := by
  unfold dictHasKey dictKeys
  rw [List.any_eq_true]
  constructor
  · rintro ⟨p, hp, he⟩
    rw [decide_eq_true_iff] at he
    exact List.mem_map.mpr ⟨p, hp, he⟩
  · intro hm
    obtain ⟨p, hp, he⟩ := List.mem_map.mp hm
    exact ⟨p, hp, by rw [decide_eq_true_iff]; exact he⟩

theorem contains_iff_mem_strlist (l : List String) (x : String) :
    l.contains x = true ↔ x ∈ l := by
  show l.elem x = true ↔ x ∈ l
  exact List.elem_iff

theorem dictGet_isSome_iff {α : Type} (d : List (String × α)) (k : String) :
    (dictGet d k).isSome = true ↔ dictHasKey d k = true := by
  simp [dictGet, dictHasKey, List.find?_isSome, List.any_eq_true]

theorem dictGet_map_update_self {α : Type} (d : List (String × α)) (k : String) (v : α)
    (h : dictHasKey d k = true) :
    dictGet (d.map (fun p => if p.1 = k then (k, v) else p)) k = some v := by
  induction d with
  | nil => simp [dictHasKey] at h
  | cons q t ih =>
      by_cases hq : q.1 = k
      · simp [dictGet, if_pos hq, List.find?]
      · simp only [dictHasKey, List.any_cons, Bool.or_eq_true, decide_eq_true_iff] at h
        rcases h with h | h
        · exact absurd h hq
        · simp only [List.map_cons, if_neg hq]
          rw [dictGet, List.find?_cons_of_neg _ (by simpa using hq)]
          exact ih h

theorem dictGet_append_single_self {α : Type} (d : List (String × α)) (k : String) (v : α)
    (h : dictHasKey d k = false) :
    dictGet (d ++ [(k, v)]) k = some v := by
  induction d with
  | nil => simp [dictGet, List.find?]
  | cons q t ih =>
      simp only [dictHasKey, List.any_cons, Bool.or_eq_false_iff, decide_eq_false_iff_not] at h
      rw [List.cons_append, dictGet, List.find?_cons_of_neg _ (by simpa using h.1)]
      exact ih (by simpa [dictHasKey] using h.2)

theorem dictGet_dictSet_self {α : Type} (d : List (String × α)) (k : String) (v : α) :
    dictGet (dictSet d k v) k = some v := by
  unfold dictSet
  by_cases h : dictHasKey d k = true
  · rw [if_pos h]
    exact dictGet_map_update_self d k v h
  · rw [if_neg h]
    exact dictGet_append_single_self d k v (by simpa using h)

theorem dictGet_map_update_ne {α : Type} (d : List (String × α)) (k k' : String) (v : α)
    (h : k' ≠ k) :
    dictGet (d.map (fun p => if p.1 = k then (k, v) else p)) k' = dictGet d k' := by
  have hk : ¬ (k = k') := fun he => h he.symm
  induction d with
  | nil => simp [dictGet]
  | cons q t ih =>
      by_cases hq : q.1 = k
      · have hq' : ¬ (q.1 = k') := by rw [hq]; exact hk
        simp only [List.map_cons, if_pos hq]
        rw [dictGet, List.find?_cons_of_neg _ (by simpa using hk),
            dictGet, List.find?_cons_of_neg _ (by simpa using hq')]
        exact ih
      · simp only [List.map_cons, if_neg hq]
        by_cases hq' : q.1 = k'
        · rw [dictGet, List.find?_cons_of_pos _ (by simpa using hq'),
              dictGet, List.find?_cons_of_pos _ (by simpa using hq')]
        · rw [dictGet, List.find?_cons_of_neg _ (by simpa using hq'),
              dictGet, List.find?_cons_of_neg _ (by simpa using hq')]
          exact ih

theorem dictGet_append_single_ne {α : Type} (d : List (String × α)) (k k' : String) (v : α)
    (h : k' ≠ k) :
    dictGet (d ++ [(k, v)]) k' = dictGet d k' := by
  have hk : ¬ (k = k') := fun he => h he.symm
  induction d with
  | nil => simp [dictGet, List.find?, hk]
  | cons q t ih =>
      by_cases hq : q.1 = k'
      · rw [List.cons_append, dictGet, List.find?_cons_of_pos _ (by simpa using hq),
            dictGet, List.find?_cons_of_pos _ (by simpa using hq)]
      · rw [List.cons_append, dictGet, List.find?_cons_of_neg _ (by simpa using hq),
            dictGet, List.find?_cons_of_neg _ (by simpa using hq)]
        exact ih

theorem dictGet_dictSet_ne {α : Type} (d : List (String × α)) (k k' : String) (v : α)
    (h : k' ≠ k) :
    dictGet (dictSet d k v) k' = dictGet d k' := by
  unfold dictSet
  by_cases hk : dictHasKey d k = true
  · rw [if_pos hk]
    exact dictGet_map_update_ne d k k' v h
  · rw [if_neg hk]
    exact dictGet_append_single_ne d k k' v h

theorem dictKeys_dictSet {α : Type} (d : List (String × α)) (k : String) (v : α) :
    dictKeys (dictSet d k v) = setAdd (dictKeys d) k := by
  unfold dictSet setAdd
  by_cases h : dictHasKey d k = true
  · have hc : (dictKeys d).contains k = true :=
      (contains_iff_mem_strlist _ _).mpr ((dictHasKey_iff_mem_keys d k).mp h)
    rw [if_pos h, if_pos hc]
    unfold dictKeys
    rw [List.map_map]
    apply List.map_congr_left
    intro p _
    by_cases hp : p.1 = k
    · simp [hp]
    · simp [hp]
  · have hc : ¬ ((dictKeys d).contains k = true) := fun hcc =>
      h ((dictHasKey_iff_mem_keys d k).mpr ((contains_iff_mem_strlist _ _).mp hcc))
    rw [if_neg h, if_neg hc]
    simp [dictKeys]

/-! ### Facts about `setAdd`, `ready_steps`, `build_tasks`, `record_results` -/

theorem mem_setAdd_iff (s : List String) (x y : String) :
    y ∈ setAdd s x ↔ y ∈ s ∨ y = x := by
  unfold setAdd
  by_cases h : s.contains x = true
  · rw [if_pos h]
    constructor
    · exact Or.inl
    · rintro (hy | hy)
      · exact hy
      · exact hy ▸ (contains_iff_mem_strlist s x).mp h
  · rw [if_neg h]
    simp

theorem setAdd_nodup (s : List String) (x : String) (h : s.Nodup) :
    (setAdd s x).Nodup := by
  unfold setAdd
  by_cases hc : s.contains x = true
  · rwa [if_pos hc]
  · rw [if_neg hc]
    have hx : x ∉ s := fun hm => hc ((contains_iff_mem_strlist s x).mpr hm)
    simp [List.nodup_append, h, hx]

theorem length_le_setAdd (s : List String) (x : String) :
    s.length ≤ (setAdd s x).length := by
  unfold setAdd
  by_cases hc : s.contains x = true
  · rw [if_pos hc]
  · rw [if_neg hc]
    simp

theorem mem_ready_steps_iff (workflow_steps : List WorkflowStep)
    (completed : List String) (s : WorkflowStep) :
    s ∈ ready_steps workflow_steps completed ↔
      s ∈ workflow_steps ∧ s.step_id ∉ completed ∧
      ∀ d ∈ s.dependencies, d ∈ completed := by
  unfold ready_steps
  rw [List.mem_filter]
  constructor
  · rintro ⟨hs, hp⟩
    rw [decide_eq_true_iff] at hp
    refine ⟨hs, fun hc => hp.1 ((contains_iff_mem_strlist _ _).mpr hc), fun d hd => ?_⟩
    have := (List.all_eq_true.mp hp.2) d hd
    exact (contains_iff_mem_strlist _ _).mp this
  · rintro ⟨hs, hid, hdeps⟩
    refine ⟨hs, ?_⟩
    rw [decide_eq_true_iff]
    exact ⟨fun hc => hid ((contains_iff_mem_strlist _ _).mp hc),
           List.all_eq_true.mpr (fun d hd => (contains_iff_mem_strlist _ _).mpr (hdeps d hd))⟩

theorem build_tasks_go {reg : Registry} {context : PyDict}
    {results : List (String × TaskResult)} (l : List WorkflowStep)
    (acc : List (String × TaskResult) × List Invocation) :
    l.foldl (build_tasks_step reg context results) acc =
      (acc.1 ++ (build_tasks reg context results l).1,
       acc.2 ++ (build_tasks reg context results l).2) := by
  induction l generalizing acc with
  | nil => simp [build_tasks]
  | cons s t ih =>
      unfold build_tasks
      rw [List.foldl_cons, List.foldl_cons, ih (build_tasks_step reg context results acc s),
          ih (build_tasks_step reg context results ([], []) s)]
      unfold build_tasks_step
      cases get_agent reg s.agent_name with
      | some a => simp
      | none => simp

theorem mem_build_tasks_fst {reg : Registry} {context : PyDict}
    {results : List (String × TaskResult)} {ready : List WorkflowStep}
    {t : String × TaskResult} (ht : t ∈ (build_tasks reg context results ready).1) :
    ∃ s ∈ ready, t.1 = s.step_id ∧
      ∃ a, get_agent reg s.agent_name = some a ∧
        t.2 = a.run s.task_description (enhance_context s context results) := by
  induction ready with
  | nil => simp [build_tasks] at ht
  | cons s l ih =>
      unfold build_tasks at ht
      rw [List.foldl_cons, build_tasks_go] at ht
      unfold build_tasks_step at ht
      cases ha : get_agent reg s.agent_name with
      | some a =>
          rw [ha] at ht
          simp only [List.mem_append] at ht
          rcases ht with ht | ht
          · have he : t = (s.step_id,
                a.run s.task_description (enhance_context s context results)) := by
              simpa using ht
            subst he
            exact ⟨s, List.mem_cons_self s l, rfl, a, ha, rfl⟩
          · obtain ⟨s', hs', h1, a', ha', h2⟩ := ih ht
            exact ⟨s', List.mem_cons_of_mem s hs', h1, a', ha', h2⟩
      | none =>
          rw [ha] at ht
          simp only [List.nil_append] at ht
          obtain ⟨s', hs', h1, a', ha', h2⟩ := ih ht
          exact ⟨s', List.mem_cons_of_mem s hs', h1, a', ha', h2⟩

theorem mem_build_tasks_snd {reg : Registry} {context : PyDict}
    {results : List (String × TaskResult)} {ready : List WorkflowStep}
    {i : Invocation} (hi : i ∈ (build_tasks reg context results ready).2) :
    i.step ∈ ready ∧ i.context = enhance_context i.step context results ∧
      i.snapshot = results := by
  induction ready with
  | nil => simp [build_tasks] at hi
  | cons s l ih =>
      unfold build_tasks at hi
      rw [List.foldl_cons, build_tasks_go] at hi
      unfold build_tasks_step at hi
      cases ha : get_agent reg s.agent_name with
      | some a =>
          rw [ha] at hi
          simp only [List.mem_append] at hi
          rcases hi with hi | hi
          · have he : i = { step := s, context := enhance_context s context results,
                            snapshot := results } := by
              simpa using hi
            subst he
            exact ⟨List.mem_cons_self s l, rfl, rfl⟩
          · obtain ⟨h1, h2, h3⟩ := ih hi
            exact ⟨List.mem_cons_of_mem s h1, h2, h3⟩
      | none =>
          rw [ha] at hi
          simp only [List.nil_append] at hi
          obtain ⟨h1, h2, h3⟩ := ih hi
          exact ⟨List.mem_cons_of_mem s h1, h2, h3⟩

theorem build_tasks_fst_mem_of_ready {reg : Registry} {context : PyDict}
    {results : List (String × TaskResult)} {ready : List WorkflowStep}
    {s : WorkflowStep} {a : Agent} (hs : s ∈ ready)
    (ha : get_agent reg s.agent_name = some a) :
    (s.step_id, a.run s.task_description (enhance_context s context results)) ∈
      (build_tasks reg context results ready).1 := by
  induction ready with
  | nil => simp at hs
  | cons q l ih =>
      unfold build_tasks
      rw [List.foldl_cons, build_tasks_go]
      unfold build_tasks_step
      rcases List.mem_cons.mp hs with hq | hq
      · subst hq
        rw [ha]
        simp
      · cases get_agent reg q.agent_name with
        | some a' =>
            simp only [List.mem_append]
            right
            exact ih hq
        | none =>
            simp only [List.nil_append]
            exact ih hq

theorem build_tasks_all_missing {reg : Registry} {context : PyDict}
    {results : List (String × TaskResult)} {ready : List WorkflowStep}
    (h : ∀ s ∈ ready, get_agent reg s.agent_name = none) :
    build_tasks reg context results ready = ([], []) := by
  induction ready with
  | nil => rfl
  | cons s l ih =>
      unfold build_tasks
      rw [List.foldl_cons]
      unfold build_tasks_step
      rw [h s (List.mem_cons_self s l)]
      exact ih (fun q hq => h q (List.mem_cons_of_mem s hq))

theorem record_results_log (tasks : List (String × TaskResult)) (st : LoopState) :
    (record_results tasks st).log = st.log := by
  induction tasks generalizing st with
  | nil => rfl
  | cons t l ih =>
      unfold record_results at ih ⊢
      rw [List.foldl_cons]
      exact ih (record_results_step st t)

theorem mem_completed_record_results (tasks : List (String × TaskResult))
    (st : LoopState) (x : String) (hx : x ∈ st.completed) :
    x ∈ (record_results tasks st).completed := by
  induction tasks generalizing st with
  | nil => exact hx
  | cons t l ih =>
      unfold record_results at ih ⊢
      rw [List.foldl_cons]
      apply ih
      unfold record_results_step
      exact (mem_setAdd_iff _ _ _).mpr (Or.inl hx)

theorem task_mem_completed_record_results (tasks : List (String × TaskResult))
    (st : LoopState) (t : String × TaskResult) (ht : t ∈ tasks) :
    t.1 ∈ (record_results tasks st).completed := by
  induction tasks generalizing st with
  | nil => simp at ht
  | cons q l ih =>
      unfold record_results at ih ⊢
      rw [List.foldl_cons]
      rcases List.mem_cons.mp ht with h | h
      · subst h
        apply mem_completed_record_results
        unfold record_results_step
        exact (mem_setAdd_iff _ _ _).mpr (Or.inr rfl)
      · exact ih (record_results_step st q) h

theorem completed_record_results_origin (tasks : List (String × TaskResult))
    (st : LoopState) (x : String) (hx : x ∈ (record_results tasks st).completed) :
    x ∈ st.completed ∨ ∃ t ∈ tasks, x = t.1 := by
  induction tasks generalizing st with
  | nil => exact Or.inl hx
  | cons q l ih =>
      unfold record_results at ih hx
      rw [List.foldl_cons] at hx
      rcases ih (record_results_step st q) hx with h | h
      · unfold record_results_step at h
        rcases (mem_setAdd_iff _ _ _).mp h with h | h
        · exact Or.inl h
        · exact Or.inr ⟨q, List.mem_cons_self q l, h⟩
      · obtain ⟨t, htl, he⟩ := h
        exact Or.inr ⟨t, List.mem_cons_of_mem q htl, he⟩

theorem record_results_keys_eq (tasks : List (String × TaskResult)) (st : LoopState)
    (h : dictKeys st.results = st.completed) :
    dictKeys (record_results tasks st).results = (record_results tasks st).completed := by
  induction tasks generalizing st with
  | nil => exact h
  | cons q l ih =>
      unfold record_results at ih ⊢
      rw [List.foldl_cons]
      apply ih
      unfold record_results_step
      simp only
      rw [dictKeys_dictSet, h]

theorem record_results_nodup (tasks : List (String × TaskResult)) (st : LoopState)
    (h : st.completed.Nodup) : (record_results tasks st).completed.Nodup := by
  induction tasks generalizing st with
  | nil => exact h
  | cons q l ih =>
      unfold record_results at ih ⊢
      rw [List.foldl_cons]
      exact ih (record_results_step st q) (setAdd_nodup _ _ h)

theorem record_results_completed_length_le (tasks : List (String × TaskResult))
    (st : LoopState) :
    st.completed.length ≤ (record_results tasks st).completed.length := by
  induction tasks generalizing st with
  | nil => exact Nat.le_refl _
  | cons q l ih =>
      unfold record_results at ih ⊢
      rw [List.foldl_cons]
      exact Nat.le_trans (length_le_setAdd _ _) (ih (record_results_step st q))

theorem record_results_strict_growth (tasks : List (String × TaskResult))
    (st : LoopState) (t : String × TaskResult) (ht : t ∈ tasks)
    (hnew : t.1 ∉ st.completed) (hnd : st.completed.Nodup) :
    st.completed.length < (record_results tasks st).completed.length := by
  have hsub : (st.completed ++ [t.1]) ⊆ (record_results tasks st).completed := by
    intro x hx
    rcases List.mem_append.mp hx with h | h
    · exact mem_completed_record_results tasks st x h
    · have he : x = t.1 := by simpa using h
      exact he ▸ task_mem_completed_record_results tasks st t ht
  have hnd2 : (st.completed ++ [t.1]).Nodup := by
    simp [List.nodup_append, hnd, hnew]
  have hsp := List.subperm_of_subset hnd2 hsub
  have := hsp.length_le
  simpa using this

/-! ### Loop-level lemmas -/

/-- Any invariant preserved by the loop body holds of the returned state. -/
theorem execute_steps_loop_post (reg : Registry) (workflow_steps : List WorkflowStep)
    (context : PyDict) (P : LoopState → Prop)
    (hstep : ∀ st, P st →
      st.completed.length < workflow_steps.length →
      P (record_results
           (build_tasks reg context st.results
              (ready_steps workflow_steps st.completed)).1
           { st with log := st.log ++ (build_tasks reg context st.results
              (ready_steps workflow_steps st.completed)).2 })) :
    ∀ fuel st st', P st →
      execute_steps_loop reg workflow_steps context fuel st = some st' → P st' := by
  intro fuel
  induction fuel with
  | zero => intro st st' _ h; simp [execute_steps_loop] at h
  | succ n ih =>
      intro st st' hP h
      rw [execute_steps_loop] at h
      by_cases hc : st.completed.length < workflow_steps.length
      · rw [if_pos hc] at h
        by_cases he : (ready_steps workflow_steps st.completed).isEmpty = true
        · rw [if_pos he] at h
          cases h
          exact hP
        · rw [if_neg he] at h
          exact ih _ st' (hstep st hP hc) h
      · rw [if_neg hc] at h
        cases h
        exact hP

/-- If the ready set is non-empty but no ready step's agent resolves, the
loop body leaves the state unchanged while the loop condition still holds,
so the `while` loop never finishes, whatever the fuel. -/
theorem execute_steps_loop_stuck (reg : Registry) (workflow_steps : List WorkflowStep)
    (context : PyDict) (st : LoopState)
    (hc : st.completed.length < workflow_steps.length)
    (hne : (ready_steps workflow_steps st.completed).isEmpty = false)
    (hmiss : ∀ s ∈ ready_steps workflow_steps st.completed,
      get_agent reg s.agent_name = none) :
    ∀ fuel, execute_steps_loop reg workflow_steps context fuel st = none := by
  intro fuel
  induction fuel with
  | zero => rfl
  | succ n ih =>
      rw [execute_steps_loop, if_pos hc]
      rw [if_neg (by rw [hne]; exact Bool.false_ne_true)]
      rw [build_tasks_all_missing hmiss]
      simpa [record_results] using ih

/-- The standing invariant of the wave loop: `step_results` keys coincide
with `completed_steps`, `completed_steps` is duplicate-free, and every
completed id is a declared step id. -/
def LoopInvP (workflow_steps : List WorkflowStep) (st : LoopState) : Prop :=
  dictKeys st.results = st.completed ∧ st.completed.Nodup ∧
    ∀ x ∈ st.completed, x ∈ workflow_steps.map (fun s => s.step_id)

/-- When some step is incomplete and every dependency id is declared, the
dependency relation admits a decreasing rank, and the invariant holds, a
rank-minimal incomplete step is ready. -/
theorem ready_nonempty_of_incomplete (workflow_steps : List WorkflowStep)
    (completed : List String) (rank : String → Nat)
    (hnd : (workflow_steps.map (fun s => s.step_id)).Nodup)
    (hdeps : ∀ s ∈ workflow_steps, ∀ d ∈ s.dependencies,
      d ∈ workflow_steps.map (fun s => s.step_id))
    (hrank : ∀ s ∈ workflow_steps, ∀ d ∈ s.dependencies, rank d < rank s.step_id)
    (hlt : completed.length < workflow_steps.length) :
    ∃ s, s ∈ ready_steps workflow_steps completed := by
  have hinc : ∃ s ∈ workflow_steps, s.step_id ∉ completed := by
    by_contra hall
    push_neg at hall
    have hsubset : (workflow_steps.map (fun s => s.step_id)) ⊆ completed := by
      intro x hx
      obtain ⟨s, hs, he⟩ := List.mem_map.mp hx
      exact he ▸ hall s hs
    have hsp := List.subperm_of_subset hnd hsubset
    have hlen := hsp.length_le
    rw [List.length_map] at hlen
    omega
  classical
  set L := workflow_steps.filter (fun s => decide (s.step_id ∉ completed)) with hL
  have hLne : L.toFinset.Nonempty := by
    obtain ⟨s, hs, hid⟩ := hinc
    refine ⟨s, List.mem_toFinset.mpr ?_⟩
    rw [hL, List.mem_filter]
    exact ⟨hs, by simpa using hid⟩
  obtain ⟨s0, hs0, hmin⟩ :=
    L.toFinset.exists_min_image (fun s => rank s.step_id) hLne
  rw [List.mem_toFinset, hL, List.mem_filter] at hs0
  have hid0 : s0.step_id ∉ completed := by simpa using hs0.2
  refine ⟨s0, (mem_ready_steps_iff _ _ _).mpr ⟨hs0.1, hid0, fun d hd => ?_⟩⟩
  by_contra hdc
  obtain ⟨t, ht, hte⟩ := List.mem_map.mp (hdeps s0 hs0.1 d hd)
  have htL : t ∈ L.toFinset := by
    rw [List.mem_toFinset, hL, List.mem_filter]
    exact ⟨ht, by simpa using (hte ▸ hdc)⟩
  have hle := hmin t htL
  have hlt2 := hrank s0 hs0.1 d hd
  rw [hte] at hle
  omega

/-- Wavefront termination: under a duplicate-free id set, declared
dependencies, a rank certificate for acyclicity and a fully-resolving
registry, the loop finishes once the fuel exceeds the number of missing
steps, and finishes with every step completed. -/
theorem execute_steps_loop_terminates (reg : Registry)
    (workflow_steps : List WorkflowStep) (context : PyDict) (rank : String → Nat)
    (hnd : (workflow_steps.map (fun s => s.step_id)).Nodup)
    (hdeps : ∀ s ∈ workflow_steps, ∀ d ∈ s.dependencies,
      d ∈ workflow_steps.map (fun s => s.step_id))
    (hrank : ∀ s ∈ workflow_steps, ∀ d ∈ s.dependencies, rank d < rank s.step_id)
    (hagents : ∀ s ∈ workflow_steps, (get_agent reg s.agent_name).isSome = true) :
    ∀ fuel st, LoopInvP workflow_steps st →
      workflow_steps.length - st.completed.length < fuel →
      ∃ st', execute_steps_loop reg workflow_steps context fuel st = some st' ∧
        LoopInvP workflow_steps st' ∧
        st'.completed.length = workflow_steps.length := by
  intro fuel
  induction fuel with
  | zero => intro st _ hf; omega
  | succ n ih =>
      intro st hinv hf
      obtain ⟨hkeys, hcnd, hsub⟩ := hinv
      by_cases hc : st.completed.length < workflow_steps.length
      · obtain ⟨s0, hs0⟩ :=
          ready_nonempty_of_incomplete workflow_steps st.completed rank
            hnd hdeps hrank hc
        have hready := (mem_ready_steps_iff _ _ _).mp hs0
        have hne : (ready_steps workflow_steps st.completed).isEmpty = false := by
          cases hrs : ready_steps workflow_steps st.completed with
          | nil => rw [hrs] at hs0; simp at hs0
          | cons a l => simp
        obtain ⟨a, ha⟩ := Option.isSome_iff_exists.mp (hagents s0 hready.1)
        set st1 : LoopState :=
          { st with log := st.log ++ (build_tasks reg context st.results
              (ready_steps workflow_steps st.completed)).2 } with hst1
        have htask := @build_tasks_fst_mem_of_ready reg context st.results
          (ready_steps workflow_steps st.completed) s0 a hs0 ha
        set st2 : LoopState :=
          record_results (build_tasks reg context st.results
            (ready_steps workflow_steps st.completed)).1 st1 with hst2
        have hkeys2 : dictKeys st2.results = st2.completed :=
          record_results_keys_eq _ _ hkeys
        have hcnd2 : st2.completed.Nodup := record_results_nodup _ _ hcnd
        have hsub2 : ∀ x ∈ st2.completed,
            x ∈ workflow_steps.map (fun s => s.step_id) := by
          intro x hx
          rcases completed_record_results_origin _ _ _ hx with h | h
          · exact hsub x h
          · obtain ⟨t, htm, he⟩ := h
            obtain ⟨s, hsr, hid, _⟩ := mem_build_tasks_fst htm
            have := ((mem_ready_steps_iff _ _ _).mp hsr).1
            exact List.mem_map.mpr ⟨s, this, (he ▸ hid).symm⟩
        have hgrow : st.completed.length < st2.completed.length :=
          record_results_strict_growth _ st1 _ htask hready.2.1 hcnd
        have hrec := ih st2 ⟨hkeys2, hcnd2, hsub2⟩ (by omega)
        obtain ⟨st', hrun, hinv', hdone⟩ := hrec
        refine ⟨st', ?_, hinv', hdone⟩
        rw [execute_steps_loop, if_pos hc,
            if_neg (by rw [hne]; exact Bool.false_ne_true)]
        exact hrun
      · have hle : st.completed.length ≤ workflow_steps.length := by
          have hsubset : st.completed ⊆ workflow_steps.map (fun s => s.step_id) := hsub
          have hsp := List.subperm_of_subset hcnd hsubset
          have := hsp.length_le
          rw [List.length_map] at this
          exact this
        refine ⟨st, ?_, ⟨hkeys, hcnd, hsub⟩, by omega⟩
        rw [execute_steps_loop, if_neg hc]

/-! ### Facts about `enhance_context` -/

theorem string_append_right_cancel (a b c : String) (h : a ++ c = b ++ c) :
    a = b := by
  have hd := congrArg String.data h
  simp only [String.data_append] at hd
  have h2 := List.append_cancel_right hd
  cases a with
  | mk da =>
      cases b with
      | mk db =>
          simp only at h2
          rw [h2]

theorem enhance_fold_frame (previous_results : List (String × TaskResult))
    (l : List String) (acc : PyDict) (k : String)
    (h : ∀ dep ∈ l, dep ++ "_result" ≠ k) :
    dictGet (l.foldl (enhance_context_step previous_results) acc) k =
      dictGet acc k := by
  induction l generalizing acc with
  | nil => rfl
  | cons e t ih =>
      rw [List.foldl_cons]
      have hstep : dictGet (enhance_context_step previous_results acc e) k =
          dictGet acc k := by
        unfold enhance_context_step
        cases hg : dictGet previous_results e with
        | some r =>
            exact dictGet_dictSet_ne _ _ _ _
              (Ne.symm (h e (List.mem_cons_self e t)))
        | none => rfl
      rw [ih _ (fun dep hd => h dep (List.mem_cons_of_mem e hd)), hstep]

theorem enhance_fold_hit (previous_results : List (String × TaskResult))
    (l : List String) (acc : PyDict) (d : String) (r : TaskResult)
    (hd : d ∈ l) (hr : dictGet previous_results d = some r) :
    dictGet (l.foldl (enhance_context_step previous_results) acc)
      (d ++ "_result") = some r.data := by
  induction l generalizing acc with
  | nil => simp at hd
  | cons e t ih =>
      rw [List.foldl_cons]
      by_cases hdt : d ∈ t
      · exact ih _ hdt
      · have he : e = d := by
          rcases List.mem_cons.mp hd with h | h
          · exact h.symm
          · exact absurd h hdt
        subst he
        have hstep : enhance_context_step previous_results acc e =
            dictSet acc (e ++ "_result") r.data := by
          unfold enhance_context_step
          rw [hr]
        rw [hstep]
        rw [enhance_fold_frame _ t _ _
          (fun dep hdep hc => hdt ((string_append_right_cancel dep e "_result" hc) ▸ hdep))]
        exact dictGet_dictSet_self _ _ _

theorem enhance_fold_keys (previous_results : List (String × TaskResult))
    (l : List String) (acc : PyDict)
    (hnd : l.Nodup)
    (hprev : ∀ dep ∈ l, dictHasKey previous_results dep = true)
    (hfresh : ∀ dep ∈ l, (dep ++ "_result") ∉ dictKeys acc) :
    dictKeys (l.foldl (enhance_context_step previous_results) acc) =
      dictKeys acc ++ l.map (fun dep => dep ++ "_result") := by
  induction l generalizing acc with
  | nil => simp
  | cons e t ih =>
      rw [List.foldl_cons]
      have hkey : dictHasKey previous_results e = true :=
        hprev e (List.mem_cons_self e t)
      rw [← dictGet_isSome_iff] at hkey
      obtain ⟨r, hr⟩ := Option.isSome_iff_exists.mp hkey
      have hstep : enhance_context_step previous_results acc e =
          acc ++ [(e ++ "_result", r.data)] := by
        unfold enhance_context_step
        rw [hr]
        show dictSet acc (e ++ "_result") r.data = acc ++ [(e ++ "_result", r.data)]
        unfold dictSet
        rw [if_neg (fun hk =>
          hfresh e (List.mem_cons_self e t) ((dictHasKey_iff_mem_keys _ _).mp hk))]
      rw [hstep]
      have hnd' : t.Nodup := (List.nodup_cons.mp hnd).2
      have hent : e ∉ t := (List.nodup_cons.mp hnd).1
      rw [ih _ hnd' (fun dep hdep => hprev dep (List.mem_cons_of_mem e hdep))
        (fun dep hdep hmem => by
          rw [dictKeys, List.map_append] at hmem
          rcases List.mem_append.mp hmem with h | h
          · exact hfresh dep (List.mem_cons_of_mem e hdep) h
          · have : dep ++ "_result" = e ++ "_result" := by simpa using h
            exact hent (string_append_right_cancel dep e "_result" this ▸ hdep))]
      rw [dictKeys, List.map_append]
      simp [dictKeys]

/-! ### Dict-object heap model (for the frame property of `_enhance_context`)

Python dicts are mutable objects.  To state that `execute_workflow` never
mutates the caller's context dict, the relevant operations are re-embedded
over an explicit store of dict objects: contexts are passed by reference,
`original_context.copy()` allocates a fresh object, and every
`enhanced_context[...] = ...` write targets a reference.  The pure embedding
above is the special case that ignores object identity. -/

structure Heap where
  dicts : Nat → PyDict
  size : Nat

/-- Dereference a dict object. -/
def Heap.get (h : Heap) (r : Nat) : PyDict := h.dicts r

/-- Allocate a fresh dict object (e.g. `d.copy()` allocates). -/
def Heap.alloc (h : Heap) (d : PyDict) : Heap × Nat :=
  ({ dicts := fun i => if i = h.size then d else h.dicts i, size := h.size + 1 },
   h.size)

/-- `obj[k] = v` on a dict object. -/
def Heap.setItem (h : Heap) (r : Nat) (k : String) (v : Value) : Heap :=
  { h with dicts := fun i => if i = r then dictSet (h.dicts i) k v else h.dicts i }

def enhance_context_ref_step (previous_results : List (String × TaskResult))
    (hr : Heap × Nat) (dep_step_id : String) : Heap × Nat :=
  match dictGet previous_results dep_step_id with
  | some r => (Heap.setItem hr.1 hr.2 (dep_step_id ++ "_result") r.data, hr.2)
  | none => hr

/-- `_enhance_context` over dict objects: `enhanced_context =
original_context.copy()` allocates a new object, and all writes go to that
fresh object. -/
def enhance_context_ref (h : Heap) (step : WorkflowStep) (original_ref : Nat)
    (previous_results : List (String × TaskResult)) : Heap × Nat :=
  step.dependencies.foldl (enhance_context_ref_step previous_results)
    (h.alloc (h.get original_ref))

def build_tasks_ref_step (reg : Registry) (original_ref : Nat)
    (results : List (String × TaskResult))
    (acc : Heap × List (String × TaskResult)) (step : WorkflowStep) :
    Heap × List (String × TaskResult) :=
  match get_agent reg step.agent_name with
  | some agent =>
      let hr := enhance_context_ref acc.1 step original_ref results
      (hr.1, acc.2 ++ [(step.step_id,
        agent.run step.task_description (hr.1.get hr.2))])
  | none => acc

/-- The dispatch `for` of one wave, over dict objects: each dispatched step
gets its own freshly allocated enriched context. -/
def build_tasks_ref (reg : Registry) (h : Heap) (original_ref : Nat)
    (results : List (String × TaskResult)) (ready : List WorkflowStep) :
    Heap × List (String × TaskResult) :=
  ready.foldl (build_tasks_ref_step reg original_ref results) (h, [])

/-- The wave loop over dict objects (ghost log omitted; it plays no role in
the frame property). -/
def execute_steps_loop_ref (reg : Registry) (workflow_steps : List WorkflowStep)
    (original_ref : Nat) : Nat → Heap → LoopState → Option (Heap × LoopState)
  | 0, _, _ => none
  | fuel + 1, h, st =>
    if st.completed.length < workflow_steps.length then
      let ready := ready_steps workflow_steps st.completed
      if ready.isEmpty then some (h, st)
      else
        let ht := build_tasks_ref reg h original_ref st.results ready
        execute_steps_loop_ref reg workflow_steps original_ref fuel ht.1
          (record_results ht.2 st)
    else some (h, st)

/-- `execute_workflow` over dict objects: the caller's context is passed by
reference; the summary builder only reads it. -/
def execute_workflow_ref (reg : Registry) (workflow_type : WorkflowType)
    (h : Heap) (original_ref : Nat) (fuel : Nat) :
    Option (Heap × WorkflowResult) :=
  let workflow_steps := get_workflow_definition workflow_type
  match execute_steps_loop_ref reg workflow_steps original_ref fuel h
    { results := [], completed := [], log := [] } with
  | none => none
  | some (h', st) =>
      some (h',
        { workflow_type := workflow_type,
          success := st.results.all (fun r => r.2.success),
          step_results := st.results,
          summary := generate_workflow_summary workflow_type st.results
            (h'.get original_ref),
          recommendations := generate_recommendations workflow_type st.results })

/-- Heap extension: all objects below `n` are untouched and the store has
grown to at least `n`. -/
def HeapFrame (n : Nat) (base h : Heap) : Prop :=
  n ≤ h.size ∧ ∀ j < n, h.dicts j = base.dicts j

theorem heapFrame_refl (n : Nat) (h : Heap) (hn : n ≤ h.size) : HeapFrame n h h :=
  ⟨hn, fun _ _ => rfl⟩

theorem heapFrame_trans {n : Nat} {h1 h2 h3 : Heap} (a : HeapFrame n h1 h2)
    (b : HeapFrame n h2 h3) : HeapFrame n h1 h3 :=
  ⟨b.1, fun j hj => (b.2 j hj).trans (a.2 j hj)⟩

theorem enhance_context_ref_frame (h : Heap) (step : WorkflowStep)
    (original_ref : Nat) (previous_results : List (String × TaskResult))
    (n : Nat) (hn : n ≤ h.size) :
    HeapFrame n h (enhance_context_ref h step original_ref previous_results).1 := by
  unfold enhance_context_ref
  have hgen : ∀ (l : List String) (p : Heap × Nat),
      n ≤ p.2 → p.2 < p.1.size → (∀ j < n, p.1.dicts j = h.dicts j) →
      HeapFrame n h (l.foldl (enhance_context_ref_step previous_results) p).1 ∧
        (l.foldl (enhance_context_ref_step previous_results) p).2 = p.2 ∧
        p.2 < (l.foldl (enhance_context_ref_step previous_results) p).1.size := by
    intro l
    induction l with
    | nil =>
        intro p hp1 hp2 hp3
        exact ⟨⟨Nat.le_trans hp1 (Nat.le_of_lt hp2), hp3⟩, rfl, hp2⟩
    | cons e t ih =>
        intro p hp1 hp2 hp3
        rw [List.foldl_cons]
        have hstep : (enhance_context_ref_step previous_results p e).2 = p.2 ∧
            (enhance_context_ref_step previous_results p e).1.size = p.1.size ∧
            ∀ j < n, (enhance_context_ref_step previous_results p e).1.dicts j =
              p.1.dicts j := by
          unfold enhance_context_ref_step
          cases dictGet previous_results e with
          | some r =>
              refine ⟨rfl, rfl, fun j hj => ?_⟩
              show (if j = p.2 then _ else p.1.dicts j) = p.1.dicts j
              rw [if_neg (by omega)]
          | none => exact ⟨rfl, rfl, fun _ _ => rfl⟩
        obtain ⟨hs1, hs2, hs3⟩ := hstep
        have := ih (enhance_context_ref_step previous_results p e)
          (hs1 ▸ hp1) (by rw [hs1, hs2]; exact hp2)
          (fun j hj => (hs3 j hj).trans (hp3 j hj))
        exact ⟨this.1, this.2.1.trans hs1, by
          have := this.2.2
          rwa [hs1] at this⟩
  have halloc : n ≤ (h.alloc (h.get original_ref)).2 := by
    unfold Heap.alloc
    exact hn
  have halloc2 : (h.alloc (h.get original_ref)).2 <
      (h.alloc (h.get original_ref)).1.size := by
    unfold Heap.alloc
    exact Nat.lt_succ_self _
  have halloc3 : ∀ j < n, (h.alloc (h.get original_ref)).1.dicts j = h.dicts j := by
    intro j hj
    unfold Heap.alloc
    show (if j = h.size then _ else h.dicts j) = h.dicts j
    rw [if_neg (by omega)]
  exact (hgen step.dependencies _ halloc halloc2 halloc3).1

theorem build_tasks_ref_frame (reg : Registry) (h : Heap) (original_ref : Nat)
    (results : List (String × TaskResult)) (ready : List WorkflowStep)
    (n : Nat) (hn : n ≤ h.size) :
    HeapFrame n h (build_tasks_ref reg h original_ref results ready).1 := by
  unfold build_tasks_ref
  have hgen : ∀ (l : List WorkflowStep) (acc : Heap × List (String × TaskResult)),
      HeapFrame n h acc.1 →
      HeapFrame n h (l.foldl (build_tasks_ref_step reg original_ref results) acc).1 := by
    intro l
    induction l with
    | nil => intro acc hacc; exact hacc
    | cons s t ih =>
        intro acc hacc
        rw [List.foldl_cons]
        apply ih
        unfold build_tasks_ref_step
        cases get_agent reg s.agent_name with
        | some agent =>
            exact heapFrame_trans hacc
              (enhance_context_ref_frame acc.1 s original_ref results n hacc.1)
        | none => exact hacc
  exact hgen ready (h, []) (heapFrame_refl n h hn)

theorem execute_steps_loop_ref_frame (reg : Registry)
    (workflow_steps : List WorkflowStep) (original_ref : Nat) (n : Nat) :
    ∀ fuel h st h' st', n ≤ h.size →
      execute_steps_loop_ref reg workflow_steps original_ref fuel h st =
        some (h', st') →
      HeapFrame n h h' := by
  intro fuel
  induction fuel with
  | zero => intro h st h' st' _ hrun; simp [execute_steps_loop_ref] at hrun
  | succ m ih =>
      intro h st h' st' hn hrun
      rw [execute_steps_loop_ref] at hrun
      by_cases hc : st.completed.length < workflow_steps.length
      · rw [if_pos hc] at hrun
        by_cases he : (ready_steps workflow_steps st.completed).isEmpty = true
        · rw [if_pos he] at hrun
          cases hrun
          exact heapFrame_refl n h hn
        · rw [if_neg he] at hrun
          have hbt := build_tasks_ref_frame reg h original_ref st.results
            (ready_steps workflow_steps st.completed) n hn
          exact heapFrame_trans hbt (ih _ _ _ _ hbt.1 hrun)
      · rw [if_neg hc] at hrun
        cases hrun
        exact heapFrame_refl n h hn

/-! ### Serial-await model of one wave (for the concurrency property)

In `_execute_workflow_steps`, `agent.execute_task(...)` merely creates a
coroutine object (its body does not start), and the await loop
`for step_id, task in tasks: result = await task` then drives each coroutine
one at a time.  The coroutines are never wrapped in `asyncio` tasks (no
`create_task` / `gather`), so no two coroutines of a wave are ever in flight
together: each runs start-to-finish before the next begins.  A wave is
modelled as cooperative state machines over a shared signal flag, driven
(a) serially in order, as the source does, and (b) round-robin, as a
concurrent dispatch would. -/

structure CoWorld where
  flag : Bool
deriving Repr, DecidableEq

/-- The two stub executors of the spec's deadlock test: one suspends until
the shared flag is set, the sibling sets the flag and finishes. -/
inductive CoTask where
  | waitFlagThenFinish
  | setFlagThenFinish
deriving Repr, DecidableEq

/-- One cooperative step of a coroutine: next world and whether it finished
(an unfinished coroutine is suspended at its internal `await`). -/
def coStep : CoTask → CoWorld → CoWorld × Bool
  | .waitFlagThenFinish, w => (w, w.flag)
  | .setFlagThenFinish, _ => ({ flag := true }, true)

/-- `await task` on a bare coroutine object: drive this one coroutine until
it finishes.  Siblings cannot run while it is suspended, because they were
never scheduled. -/
def await_one : Nat → CoTask → CoWorld → Option CoWorld
  | 0, _, _ => none
  | fuel + 1, t, w =>
      let sw := coStep t w
      if sw.2 then some sw.1 else await_one fuel t sw.1

/-- The source's await loop over a wave's tasks: strictly serial. -/
def await_tasks_serial (fuel : Nat) : List CoTask → CoWorld → Option CoWorld
  | [], w => some w
  | t :: ts, w =>
      match await_one fuel t w with
      | some w2 => await_tasks_serial fuel ts w2
      | none => none

/-- Round-robin cooperative scheduling of the whole wave: the behavior a
concurrent dispatch (`asyncio.gather` / `create_task`) would give.  Fuel
counts scheduler steps; a suspended task is requeued. -/
def await_tasks_concurrent : Nat → List CoTask → CoWorld → Option CoWorld
  | _, [], w => some w
  | 0, _ :: _, _ => none
  | fuel + 1, t :: ts, w =>
      let sw := coStep t w
      if sw.2 then await_tasks_concurrent fuel ts sw.1
      else await_tasks_concurrent fuel (ts ++ [t]) sw.1

/-! ### Concrete fixtures -/

/-- A stub agent in the shape of the spec's test stubs: always succeeds with
confidence 0.9. -/
def stub_agent : Agent :=
  ⟨fun _ _ => { success := true, data := Value.dict [("note", Value.str "ok")],
                confidence := 9 / 10, metadata := [("agent", Value.str "stub")] }⟩

/-- A registry holding only the stub agent under the name "stub". -/
def reg_stub : Registry := [("stub", stub_agent)]

/-- A registry binding the four agent names of this repository to stubs. -/
def reg_all : Registry :=
  [("real_estate_analyst", stub_agent), ("construction_coordinator", stub_agent),
   ("marketing_strategist", stub_agent), ("medical_research_assistant", stub_agent)]

/-- The spec scenario step `{A: deps=[X]}` where `X` is defined nowhere; its
executor name does resolve, so any skipping is due to the dependency alone. -/
def step_A_dep_X : WorkflowStep :=
  { step_id := "A", agent_name := "stub", task_description := "task A",
    dependencies := ["X"], expected_duration := 1 }

/-! ### Claim C1 -/

/-- C1 counterexample: on the definition `{A: deps=[X]}` with `X` undefined,
`_execute_workflow_steps` does not raise a DefinitionError — it returns
normally, with no TaskResult for `A` and an empty invocation log (no
executor was invoked). -/
theorem undefined_dependency_no_error_counterexample :
    execute_workflow_steps reg_stub [step_A_dep_X] [] 5 =
      some { results := [], completed := [], log := [] } := rfl

/-- C1 (amended): in a workflow with duplicate-free step ids, a step whose
dependency list references an id defined nowhere is never dispatched: no
DefinitionError is raised (the loop returns normally whenever it returns),
the returned `step_results` holds no TaskResult for that step, and that
step's executor is never invoked. -/
theorem undefined_dependency_step_never_runs (reg : Registry)
    (workflow_steps : List WorkflowStep) (context : PyDict) (fuel : Nat)
    (st : LoopState) (s : WorkflowStep) (d : String)
    (hnd : (workflow_steps.map (fun q => q.step_id)).Nodup)
    (hs : s ∈ workflow_steps) (hd : d ∈ s.dependencies)
    (hdn : d ∉ workflow_steps.map (fun q => q.step_id))
    (hrun : execute_workflow_steps reg workflow_steps context fuel = some st) :
    dictGet st.results s.step_id = none ∧
      ∀ i ∈ st.log, i.step.step_id ≠ s.step_id := by
  have hinj : ∀ q ∈ workflow_steps, ∀ q' ∈ workflow_steps,
      q.step_id = q'.step_id → q = q' :=
    fun q hq q' hq' he => List.inj_on_of_nodup_map hnd hq hq' he
  have hpost := execute_steps_loop_post reg workflow_steps context
    (fun st0 => s.step_id ∉ st0.completed ∧ d ∉ st0.completed ∧
      (∀ i ∈ st0.log, i.step.step_id ≠ s.step_id) ∧
      dictKeys st0.results = st0.completed)
    (by
      intro st0 hP0 _
      obtain ⟨h1, h2, h3, h4⟩ := hP0
      have hready_not_s : ∀ q ∈ ready_steps workflow_steps st0.completed,
          q.step_id ≠ s.step_id := by
        intro q hq he
        have hqq := (mem_ready_steps_iff _ _ _).mp hq
        have hqs : q = s := hinj q hqq.1 s hs he
        subst hqs
        exact h2 (hqq.2.2 d hd)
      refine ⟨?_, ?_, ?_, ?_⟩
      · intro hmem
        rcases completed_record_results_origin _ _ _ hmem with hold | ⟨t, htm, hte⟩
        · exact h1 hold
        · obtain ⟨q, hq, hqid, _⟩ := mem_build_tasks_fst htm
          exact hready_not_s q hq (by rw [← hqid, ← hte])
      · intro hmem
        rcases completed_record_results_origin _ _ _ hmem with hold | ⟨t, htm, hte⟩
        · exact h2 hold
        · obtain ⟨q, hq, hqid, _⟩ := mem_build_tasks_fst htm
          have hqs : q ∈ workflow_steps := ((mem_ready_steps_iff _ _ _).mp hq).1
          exact hdn (List.mem_map.mpr ⟨q, hqs, by rw [← hqid, ← hte]⟩)
      · intro i hi
        rw [record_results_log] at hi
        simp only [List.mem_append] at hi
        rcases hi with hi | hi
        · exact h3 i hi
        · obtain ⟨hir, _, _⟩ := mem_build_tasks_snd hi
          exact hready_not_s i.step hir
      · exact record_results_keys_eq _ _ h4)
    fuel { results := [], completed := [], log := [] } st
    (by exact ⟨by simp, by simp, by simp, rfl⟩) hrun
  refine ⟨?_, hpost.2.2.1⟩
  apply Option.not_isSome_iff_eq_none.mp
  intro hsome
  have hk := (dictGet_isSome_iff _ _).mp hsome
  have hmem := (dictHasKey_iff_mem_keys _ _).mp hk
  rw [hpost.2.2.2] at hmem
  exact hpost.1 hmem

/-- C1 witness: the amended theorem applied to the concrete scenario
`{A: deps=[X]}`. -/
theorem undefined_dependency_step_never_runs_witness :
    dictGet ({ results := [], completed := [], log := [] } : LoopState).results
        step_A_dep_X.step_id = none ∧
      ∀ i ∈ ({ results := [], completed := [], log := [] } : LoopState).log,
        i.step.step_id ≠ step_A_dep_X.step_id :=
  undefined_dependency_step_never_runs reg_stub [step_A_dep_X] [] 5
    { results := [], completed := [], log := [] } step_A_dep_X "X"
    (by decide) (by decide) (by decide) (by decide) rfl

/-! ### Claim C2 -/

/-- C2 counterexample: `MARKETING_CAMPAIGN` has no workflow definition, yet
`execute_workflow` returns a WorkflowResult with `success = true` (and empty
step results) instead of failing with a DefinitionError. -/
theorem unknown_kind_success_true_counterexample :
    (execute_workflow [] WorkflowType.MARKETING_CAMPAIGN [] 1).map
      (fun r => (r.success, r.step_results)) = some (true, []) := rfl

/-- C2 (amended): for every workflowKind whose definition lookup yields the
empty step list (the `workflows.get(workflow_type, [])` default),
`execute_workflow` raises nothing and returns a WorkflowResult with
`success = true` and no step results — `all()` over the empty dict is
vacuously true. -/
theorem unknown_kind_returns_empty_success (reg : Registry) (wt : WorkflowType)
    (context : PyDict) (fuel : Nat)
    (hdef : get_workflow_definition wt = []) (hfuel : 1 ≤ fuel) :
    ∃ r, execute_workflow reg wt context fuel = some r ∧
      r.success = true ∧ r.step_results = [] := by
  cases fuel with
  | zero => omega
  | succ n =>
      have hrun : execute_workflow_steps reg (get_workflow_definition wt)
          context (n + 1) = some { results := [], completed := [], log := [] } := by
        rw [hdef]
        rfl
      unfold execute_workflow
      simp only [hrun]
      exact ⟨_, rfl, rfl, rfl⟩

/-- C2 witness: the amended theorem applied to `CONSTRUCTION_PROJECT` (the
other kind with no definition). -/
theorem unknown_kind_returns_empty_success_witness :
    ∃ r, execute_workflow reg_stub WorkflowType.CONSTRUCTION_PROJECT
        [("site", Value.str "downtown")] 3 = some r ∧
      r.success = true ∧ r.step_results = [] :=
  unknown_kind_returns_empty_success reg_stub WorkflowType.CONSTRUCTION_PROJECT
    [("site", Value.str "downtown")] 3 (by rfl) (by omega)

/-! ### Claim C3 -/

/-- Sibling step with a registered executor. -/
def step_B_stub : WorkflowStep :=
  { step_id := "B", agent_name := "stub", task_description := "task B",
    dependencies := [], expected_duration := 1 }

/-- Step naming an executor absent from the registry. -/
def step_A_ghost : WorkflowStep :=
  { step_id := "A", agent_name := "ghost_agent", task_description := "task A",
    dependencies := [], expected_duration := 1 }

def c3_steps : List WorkflowStep := [step_B_stub, step_A_ghost]

/-- The loop state after the first wave of `c3_steps`. -/
def c3_state1 : LoopState :=
  record_results (build_tasks reg_stub [] [] (ready_steps c3_steps [])).1
    { results := [], completed := [],
      log := (build_tasks reg_stub [] [] (ready_steps c3_steps [])).2 }

/-- C3 counterexample: with `B` bound to a registered stub and `A` naming an
unregistered executor, no failed TaskResult is ever synthesized for `A`:
after wave 1 the sibling `B` has executed and completed, but `A` remains the
sole ready step forever, the dispatch builds zero tasks for it, and the loop
never finishes (fuel 10 is already insufficient, and the post-wave-1 state
is a fixpoint of the loop body). -/
theorem missing_executor_counterexample :
    execute_workflow_steps reg_stub c3_steps [] 10 = none ∧
    c3_state1.results.map (fun p => p.1) = ["B"] ∧
    c3_state1.completed = ["B"] ∧
    (ready_steps c3_steps c3_state1.completed).map (fun s => s.step_id) = ["A"] ∧
    (build_tasks reg_stub [] c3_state1.results
      (ready_steps c3_steps c3_state1.completed)).1 = [] ∧
    (build_tasks reg_stub [] c3_state1.results
      (ready_steps c3_steps c3_state1.completed)).2 = [] :=
  ⟨rfl, rfl, rfl, rfl, rfl, rfl⟩

/-- C3 (amended): a step naming an unregistered executor is silently
skipped: no TaskResult (failed or otherwise) is synthesized for it and it
never completes, so whenever the loop returns at all, the workflow is
incomplete — fewer completed steps than declared.  (With nothing else left
to run the loop does not return at all; see the counterexample.  Siblings
with registered executors still execute.) -/
theorem missing_executor_step_skipped (reg : Registry)
    (workflow_steps : List WorkflowStep) (context : PyDict) (fuel : Nat)
    (st : LoopState) (s : WorkflowStep)
    (hnd : (workflow_steps.map (fun q => q.step_id)).Nodup)
    (hs : s ∈ workflow_steps)
    (hmiss : get_agent reg s.agent_name = none)
    (hrun : execute_workflow_steps reg workflow_steps context fuel = some st) :
    dictGet st.results s.step_id = none ∧
      st.completed.length < workflow_steps.length := by
  have hinj : ∀ q ∈ workflow_steps, ∀ q' ∈ workflow_steps,
      q.step_id = q'.step_id → q = q' :=
    fun q hq q' hq' he => List.inj_on_of_nodup_map hnd hq hq' he
  have hpost := execute_steps_loop_post reg workflow_steps context
    (fun st0 => s.step_id ∉ st0.completed ∧
      dictKeys st0.results = st0.completed ∧ st0.completed.Nodup ∧
      ∀ x ∈ st0.completed, x ∈ workflow_steps.map (fun q => q.step_id))
    (by
      intro st0 hP0 _
      obtain ⟨h1, h2, h3, h4⟩ := hP0
      refine ⟨?_, record_results_keys_eq _ _ h2, record_results_nodup _ _ h3, ?_⟩
      · intro hmem
        rcases completed_record_results_origin _ _ _ hmem with hold | ⟨t, htm, hte⟩
        · exact h1 hold
        · obtain ⟨q, hq, hqid, a, ha, _⟩ := mem_build_tasks_fst htm
          have hqs : q ∈ workflow_steps := ((mem_ready_steps_iff _ _ _).mp hq).1
          have : q = s := hinj q hqs s hs (by rw [← hqid, ← hte])
          rw [this, hmiss] at ha
          cases ha
      · intro x hx
        rcases completed_record_results_origin _ _ _ hx with hold | ⟨t, htm, hte⟩
        · exact h4 x hold
        · obtain ⟨q, hq, hqid, _⟩ := mem_build_tasks_fst htm
          have hqs : q ∈ workflow_steps := ((mem_ready_steps_iff _ _ _).mp hq).1
          exact List.mem_map.mpr ⟨q, hqs, by rw [← hqid, ← hte]⟩)
    fuel { results := [], completed := [], log := [] } st
    (by exact ⟨by simp, rfl, List.nodup_nil, by simp⟩) hrun
  obtain ⟨h1, h2, h3, h4⟩ := hpost
  constructor
  · apply Option.not_isSome_iff_eq_none.mp
    intro hsome
    have hk := (dictGet_isSome_iff _ _).mp hsome
    have hmem := (dictHasKey_iff_mem_keys _ _).mp hk
    rw [h2] at hmem
    exact h1 hmem
  · by_contra hge
    push_neg at hge
    have hsubF : st.completed.toFinset ⊆
        (workflow_steps.map (fun q => q.step_id)).toFinset := by
      intro x hx
      exact List.mem_toFinset.mpr (h4 x (List.mem_toFinset.mp hx))
    have hcard1 : st.completed.toFinset.card = st.completed.length :=
      List.toFinset_card_of_nodup h3
    have hcard2 : (workflow_steps.map (fun q => q.step_id)).toFinset.card =
        workflow_steps.length := by
      rw [List.toFinset_card_of_nodup hnd, List.length_map]
    have heq := Finset.eq_of_subset_of_card_le hsubF (by omega)
    have hsmem : s.step_id ∈ st.completed := by
      have : s.step_id ∈ (workflow_steps.map (fun q => q.step_id)).toFinset :=
        List.mem_toFinset.mpr (List.mem_map.mpr ⟨s, hs, rfl⟩)
      rw [← heq] at this
      exact List.mem_toFinset.mp this
    exact h1 hsmem

/-- The missing-executor step of the C3 witness: its (undefined) dependency
makes the loop break at once, exercising the amended theorem on a run that
does return. -/
def step_A_ghost_depZ : WorkflowStep :=
  { step_id := "A", agent_name := "ghost_agent", task_description := "task A",
    dependencies := ["Z"], expected_duration := 1 }

/-- C3 witness: the amended theorem applied to a concrete returning run. -/
theorem missing_executor_step_skipped_witness :
    dictGet ({ results := [], completed := [], log := [] } : LoopState).results
        step_A_ghost_depZ.step_id = none ∧
      ({ results := [], completed := [], log := [] } : LoopState).completed.length <
        ([step_A_ghost_depZ] : List WorkflowStep).length :=
  missing_executor_step_skipped reg_stub [step_A_ghost_depZ] [] 4
    { results := [], completed := [], log := [] } step_A_ghost_depZ
    (by decide) (by decide) rfl rfl

/-! ### Claim C4 -/

/-- An acyclic dependency-free step whose executor is unregistered. -/
def step_S_ghost : WorkflowStep :=
  { step_id := "S", agent_name := "ghost_agent", task_description := "task S",
    dependencies := [], expected_duration := 1 }

/-- C4 counterexample: the definition `{S: deps=[]}` is acyclic and its
execution raises no error, yet the loop does not terminate: `S` is ready
from wave 1 on, the dispatch builds zero tasks for it (executor
unregistered, a non-fatal condition), so the loop body is the identity and
fuel 10 still yields no outcome. -/
theorem acyclic_termination_counterexample :
    execute_workflow_steps [] [step_S_ghost] [] 10 = none ∧
    (ready_steps [step_S_ghost] []).map (fun s => s.step_id) = ["S"] ∧
    (build_tasks [] [] [] (ready_steps [step_S_ghost] [])).1 = [] ∧
    (build_tasks [] [] [] (ready_steps [step_S_ghost] [])).2 = [] :=
  ⟨rfl, rfl, rfl, rfl⟩

/-- C4 (amended): for every workflow definition with duplicate-free step
ids, dependencies all declared, acyclicity witnessed by a decreasing rank,
and every step's executor resolving in the registry, the wave loop
terminates within `steps.length + 1` iterations and its `step_results`
contains exactly one TaskResult per declared step. -/
theorem acyclic_resolvable_workflow_terminates (reg : Registry)
    (workflow_steps : List WorkflowStep) (context : PyDict) (rank : String → Nat)
    (hnd : (workflow_steps.map (fun s => s.step_id)).Nodup)
    (hdeps : ∀ s ∈ workflow_steps, ∀ d ∈ s.dependencies,
      d ∈ workflow_steps.map (fun s => s.step_id))
    (hrank : ∀ s ∈ workflow_steps, ∀ d ∈ s.dependencies, rank d < rank s.step_id)
    (hagents : ∀ s ∈ workflow_steps, (get_agent reg s.agent_name).isSome = true) :
    ∃ st, execute_workflow_steps reg workflow_steps context
        (workflow_steps.length + 1) = some st ∧
      (dictKeys st.results).Nodup ∧
      ∀ x, x ∈ dictKeys st.results ↔
        x ∈ workflow_steps.map (fun s => s.step_id) := by
  have hterm := execute_steps_loop_terminates reg workflow_steps context rank
    hnd hdeps hrank hagents (workflow_steps.length + 1)
    { results := [], completed := [], log := [] }
    ⟨rfl, List.nodup_nil, by simp⟩ (by simp)
  obtain ⟨st, hrun, ⟨hkeys, hcnd, hsub⟩, hlen⟩ := hterm
  refine ⟨st, hrun, by rw [hkeys]; exact hcnd, ?_⟩
  have hsubF : st.completed.toFinset ⊆
      (workflow_steps.map (fun s => s.step_id)).toFinset := by
    intro x hx
    exact List.mem_toFinset.mpr (hsub x (List.mem_toFinset.mp hx))
  have hcard1 : st.completed.toFinset.card = workflow_steps.length := by
    rw [List.toFinset_card_of_nodup hcnd, hlen]
  have hcard2 : (workflow_steps.map (fun s => s.step_id)).toFinset.card =
      workflow_steps.length := by
    rw [List.toFinset_card_of_nodup hnd, List.length_map]
  have heq := Finset.eq_of_subset_of_card_le hsubF (by omega)
  intro x
  rw [hkeys]
  constructor
  · exact fun h => hsub x h
  · intro h
    have : x ∈ st.completed.toFinset := by
      rw [heq]
      exact List.mem_toFinset.mpr h
    exact List.mem_toFinset.mp this

/-- The rank certificate of the C4 witness workflow. -/
def real_estate_rank (x : String) : Nat :=
  if x = "market_analysis" then 0 else 1

/-- C4 witness: the amended theorem applied to the repository's
REAL_ESTATE_DEVELOPMENT definition with all four agents registered. -/
theorem acyclic_resolvable_workflow_terminates_witness :
    ∃ st, execute_workflow_steps reg_all
        (get_workflow_definition WorkflowType.REAL_ESTATE_DEVELOPMENT) []
        ((get_workflow_definition WorkflowType.REAL_ESTATE_DEVELOPMENT).length + 1) =
        some st ∧
      (dictKeys st.results).Nodup ∧
      ∀ x, x ∈ dictKeys st.results ↔
        x ∈ (get_workflow_definition WorkflowType.REAL_ESTATE_DEVELOPMENT).map
          (fun s => s.step_id) :=
  acyclic_resolvable_workflow_terminates reg_all
    (get_workflow_definition WorkflowType.REAL_ESTATE_DEVELOPMENT) []
    real_estate_rank (by decide) (by decide) (by decide) (by decide)

/-! ### Claim C5 -/

/-- C5: for every execution of `execute_workflow` that returns a
WorkflowResult, `success` is true iff every TaskResult recorded in
`step_results` has `success = true` — the conjunction
`all(result.success for result in step_results.values())` of the source. -/
theorem workflow_success_iff_all_steps (reg : Registry) (wt : WorkflowType)
    (context : PyDict) (fuel : Nat) (r : WorkflowResult)
    (h : execute_workflow reg wt context fuel = some r) :
    r.success = true ↔ ∀ p ∈ r.step_results, p.2.success = true := by
  unfold execute_workflow at h
  cases hrun : execute_workflow_steps reg (get_workflow_definition wt)
      context fuel with
  | none =>
      simp only [hrun] at h
      cases h
  | some st =>
      simp only [hrun] at h
      injection h with h2
      rw [← h2]
      exact List.all_eq_true

/-- Fallback WorkflowResult used to name concrete run outcomes. -/
def default_workflow_result : WorkflowResult :=
  { workflow_type := WorkflowType.MARKETING_CAMPAIGN, success := false,
    step_results := [], summary := [], recommendations := [] }

/-- The outcome of a concrete three-step run (all stubs succeed). -/
def demo_result : WorkflowResult :=
  (execute_workflow reg_all WorkflowType.REAL_ESTATE_DEVELOPMENT [] 4).getD
    default_workflow_result

/-- C5 witness: the theorem applied to a concrete returning run. -/
theorem workflow_success_iff_all_steps_witness :
    (execute_workflow reg_all WorkflowType.REAL_ESTATE_DEVELOPMENT [] 4 =
      some demo_result) ∧
    (demo_result.success = true ↔
      ∀ p ∈ demo_result.step_results, p.2.success = true) :=
  ⟨rfl, workflow_success_iff_all_steps reg_all WorkflowType.REAL_ESTATE_DEVELOPMENT
    [] 4 demo_result rfl⟩

/-! ### Claim C6 -/

/-- C6 (code_bug): the wave's coroutines are awaited serially, not
dispatched concurrently.  With the spec's deadlock test pair — one executor
suspends until its sibling signals, the sibling sets the signal and
finishes — the source's serial await loop never finishes for any fuel (the
first coroutine is driven alone; its sibling never starts), whereas a
concurrent round-robin dispatch of the very same wave finishes with the
flag set. -/
theorem serial_wave_await_deadlocks :
    (∀ fuel, await_tasks_serial fuel
      [CoTask.waitFlagThenFinish, CoTask.setFlagThenFinish]
      { flag := false } = none) ∧
    await_tasks_concurrent 4
      [CoTask.waitFlagThenFinish, CoTask.setFlagThenFinish]
      { flag := false } = some { flag := true } := by
  constructor
  · have hone : ∀ f, await_one f CoTask.waitFlagThenFinish { flag := false } =
        none := by
      intro f
      induction f with
      | zero => rfl
      | succ n ih => exact ih
    intro fuel
    show (match await_one fuel CoTask.waitFlagThenFinish { flag := false } with
      | some w2 => await_tasks_serial fuel [CoTask.setFlagThenFinish] w2
      | none => none) = none
    rw [hone fuel]
  · rfl

/-! ### Claim C7 -/

/-- C7: on every returning run, every executor invocation recorded in the
ghost log was dispatched with a finalized TaskResult already in the results
map for each of the invoked step's declared dependencies (a step becomes
ready only once all its dependency ids are completed, and completion and
result recording happen together). -/
theorem step_waits_for_dependencies (reg : Registry)
    (workflow_steps : List WorkflowStep) (context : PyDict) (fuel : Nat)
    (st : LoopState)
    (hrun : execute_workflow_steps reg workflow_steps context fuel = some st) :
    ∀ i ∈ st.log, ∀ d ∈ i.step.dependencies,
      (dictGet i.snapshot d).isSome = true := by
  have hpost := execute_steps_loop_post reg workflow_steps context
    (fun st0 => dictKeys st0.results = st0.completed ∧
      ∀ i ∈ st0.log, ∀ d ∈ i.step.dependencies, dictHasKey i.snapshot d = true)
    (by
      intro st0 hP0 _
      obtain ⟨h1, h2⟩ := hP0
      refine ⟨record_results_keys_eq _ _ h1, ?_⟩
      intro i hi d hd
      rw [record_results_log] at hi
      simp only [List.mem_append] at hi
      rcases hi with hi | hi
      · exact h2 i hi d hd
      · obtain ⟨hir, _, hsnap⟩ := mem_build_tasks_snd hi
        have hready := (mem_ready_steps_iff _ _ _).mp hir
        rw [hsnap]
        apply (dictHasKey_iff_mem_keys _ _).mpr
        rw [h1]
        exact hready.2.2 d hd)
    fuel { results := [], completed := [], log := [] } st ⟨rfl, by simp⟩ hrun
  intro i hi d hd
  exact (dictGet_isSome_iff _ _).mpr (hpost.2 i hi d hd)

/-- The final loop state of a concrete chain-shaped run (to exercise C7 on
a non-empty log). -/
def c7_state : LoopState :=
  (execute_workflow_steps reg_all
    (get_workflow_definition WorkflowType.BUSINESS_EXPANSION) [] 4).getD
    { results := [], completed := [], log := [] }

/-- C7 witness: the theorem applied to a concrete three-wave run; the first
conjunct shows the invocation log is non-empty (all three steps ran). -/
theorem step_waits_for_dependencies_witness :
    c7_state.log.map (fun i => i.step.step_id) =
      ["market_research", "location_analysis", "facility_planning"] ∧
    ∀ i ∈ c7_state.log, ∀ d ∈ i.step.dependencies,
      (dictGet i.snapshot d).isSome = true :=
  ⟨rfl, step_waits_for_dependencies reg_all
    (get_workflow_definition WorkflowType.BUSINESS_EXPANSION) [] 4 c7_state rfl⟩

/-! ### Claim C8 -/

/-- First parallel step of the spec scenario `{A: deps=[], B: deps=[],
C: deps=[A,B]}`. -/
def step_A_stub : WorkflowStep :=
  { step_id := "A", agent_name := "stub", task_description := "task A",
    dependencies := [], expected_duration := 1 }

/-- Joining step of the spec scenario, depending on both `A` and `B`. -/
def step_C_stub : WorkflowStep :=
  { step_id := "C", agent_name := "stub", task_description := "task C",
    dependencies := ["A", "B"], expected_duration := 1 }

def c8_steps : List WorkflowStep := [step_A_stub, step_B_stub, step_C_stub]

/-- Final loop state of the scenario run. -/
def c8_state : LoopState :=
  (execute_workflow_steps reg_stub c8_steps [] 5).getD
    { results := [], completed := [], log := [] }

/-- Dependency results handed to the C8 witness. -/
def c8_prev : List (String × TaskResult) :=
  [("A", stub_agent.run "task A" []), ("B", stub_agent.run "task B" [])]

/-- C8: the context passed to a ready step's executor is the caller's
context enriched with the dependency results: each `"<depId>_result"` key
maps to that dependency's recorded TaskResult data, every other key is
looked up in the caller's context unchanged, and (for fresh keys and
duplicate-free dependencies) exactly one entry is added per declared
dependency.  In the scenario `{A: deps=[], B: deps=[], C: deps=[A,B]}` with
always-succeeding stubs, the run records exactly the results A, B, C, all
successful, and only C's dispatched context carries the keys `"A_result"`
and `"B_result"`. -/
theorem enriched_context_spec (step : WorkflowStep) (original_context : PyDict)
    (previous_results : List (String × TaskResult))
    (hnodup : step.dependencies.Nodup)
    (hall : ∀ d ∈ step.dependencies, dictHasKey previous_results d = true)
    (hfresh : ∀ d ∈ step.dependencies,
      (d ++ "_result") ∉ dictKeys original_context) :
    (∀ d ∈ step.dependencies, ∀ r, dictGet previous_results d = some r →
      dictGet (enhance_context step original_context previous_results)
        (d ++ "_result") = some r.data) ∧
    (∀ k, (∀ d ∈ step.dependencies, d ++ "_result" ≠ k) →
      dictGet (enhance_context step original_context previous_results) k =
        dictGet original_context k) ∧
    dictKeys (enhance_context step original_context previous_results) =
      dictKeys original_context ++
        step.dependencies.map (fun d => d ++ "_result") ∧
    c8_state.results.map (fun p => p.1) = ["A", "B", "C"] ∧
    c8_state.results.all (fun p => p.2.success) = true ∧
    c8_state.log.map (fun i =>
        (i.step.step_id, dictHasKey i.context "A_result",
         dictHasKey i.context "B_result")) =
      [("A", false, false), ("B", false, false), ("C", true, true)] := by
  refine ⟨?_, ?_, ?_, rfl, rfl, rfl⟩
  · intro d hd r hr
    exact enhance_fold_hit previous_results step.dependencies original_context
      d r hd hr
  · intro k hk
    exact enhance_fold_frame previous_results step.dependencies
      original_context k hk
  · exact enhance_fold_keys previous_results step.dependencies original_context
      hnodup hall hfresh

/-- C8 witness: the theorem applied to step C of the scenario with the
recorded results of A and B, reading back A's data entry. -/
theorem enriched_context_spec_witness :
    dictGet (enhance_context step_C_stub [("city", Value.str "Austin")] c8_prev)
      ("A" ++ "_result") = some (stub_agent.run "task A" []).data :=
  (enriched_context_spec step_C_stub [("city", Value.str "Austin")] c8_prev
    (by decide) (by decide) (by decide)).1 "A" (by decide) _ rfl

/-! ### Claim C9 -/

/-- The domain-specific items one step contributes to the aggregated
recommendations, per the spec's words: up to 2 items from each successful
step's result data. -/
def per_step_recommendations (p : String × TaskResult) : List Value :=
  if p.2.success then
    match p.2.data with
    | .dict d =>
        match dictGet d "recommendations" with
        | some v => pySlice2 v
        | none => []
    | _ => []
  else []

/-- The aggregated recommendations list per the amended claim: generic
cross-cutting advice, then up to 2 domain-specific items per successful
step in order, truncated to the fixed cap 8 — duplicates retained. -/
def recommendations_formula (step_results : List (String × TaskResult)) :
    List Value :=
  (generic_recommendations ++
    (step_results.map per_step_recommendations).flatten).take 8

theorem generate_recommendations_step_append (acc : List Value)
    (p : String × TaskResult) :
    generate_recommendations_step acc p = acc ++ per_step_recommendations p := by
  unfold generate_recommendations_step per_step_recommendations
  by_cases hs : p.2.success = true
  · rw [if_pos hs, if_pos hs]
    cases p.2.data with
    | dict d =>
        show (match dictGet d "recommendations" with
            | some v => acc ++ pySlice2 v
            | none => acc) =
          acc ++ (match dictGet d "recommendations" with
            | some v => pySlice2 v
            | none => ([] : List Value))
        cases dictGet d "recommendations" with
        | some v => rfl
        | none => simp
    | str s => simp
    | num q => simp
    | bool b => simp
    | list l => simp
  · rw [if_neg hs, if_neg hs]
    simp

/-- One TaskResult whose data repeats the same recommendation twice. -/
def dup_rec_results : List (String × TaskResult) :=
  [("s1", { success := true,
            data := Value.dict [("recommendations",
              Value.list [Value.str "Install sensors", Value.str "Install sensors"])],
            confidence := 1, metadata := [] })]

/-- C9 counterexample: `_generate_recommendations` does not deduplicate: a
successful step whose data repeats one recommendation yields that string
twice in the aggregated list. -/
theorem recommendations_not_deduplicated :
    generate_recommendations WorkflowType.REAL_ESTATE_DEVELOPMENT dup_rec_results =
      generic_recommendations ++
        [Value.str "Install sensors", Value.str "Install sensors"] ∧
    ¬ (generate_recommendations WorkflowType.REAL_ESTATE_DEVELOPMENT
        dup_rec_results).Nodup := by
  constructor
  · rfl
  · intro h
    have h1 : generate_recommendations WorkflowType.REAL_ESTATE_DEVELOPMENT
        dup_rec_results =
        generic_recommendations ++
          [Value.str "Install sensors", Value.str "Install sensors"] := rfl
    rw [h1] at h
    have h2 := h.sublist (List.sublist_append_right generic_recommendations
      [Value.str "Install sensors", Value.str "Install sensors"])
    exact (List.nodup_cons.mp h2).1 (List.mem_singleton.mpr rfl)

/-- C9 (amended): the aggregated recommendations list is the generic advice
followed by up to 2 domain-specific items per successful step (in first
appearance order), truncated to the fixed cap 8 — without deduplication. -/
theorem generate_recommendations_eq_formula (workflow_type : WorkflowType)
    (step_results : List (String × TaskResult)) :
    generate_recommendations workflow_type step_results =
      recommendations_formula step_results := by
  unfold generate_recommendations recommendations_formula
  have hfold : ∀ (l : List (String × TaskResult)) (acc : List Value),
      l.foldl generate_recommendations_step acc =
        acc ++ (l.map per_step_recommendations).flatten := by
    intro l
    induction l with
    | nil => intro acc; simp
    | cons e t ih =>
        intro acc
        rw [List.foldl_cons, ih, generate_recommendations_step_append]
        simp [List.append_assoc]
  rw [hfold]

/-! ### Claim C10 -/

/-- C10: a returning run of `execute_workflow` over the dict-object heap
leaves the caller's context object exactly as it was: all enrichment writes
go to per-step fresh copies, so the caller's dict holds the same keys and
bindings after the call. -/
theorem caller_context_never_mutated (reg : Registry) (wt : WorkflowType)
    (h : Heap) (original_ref : Nat) (fuel : Nat) (h2 : Heap)
    (res : WorkflowResult) (href : original_ref < h.size)
    (hrun : execute_workflow_ref reg wt h original_ref fuel = some (h2, res)) :
    h2.get original_ref = h.get original_ref := by
  unfold execute_workflow_ref at hrun
  cases hloop : execute_steps_loop_ref reg (get_workflow_definition wt)
      original_ref fuel h { results := [], completed := [], log := [] } with
  | none =>
      simp only [hloop] at hrun
      cases hrun
  | some p =>
      obtain ⟨h3, st⟩ := p
      simp only [hloop] at hrun
      injection hrun with hpair
      have hh : h3 = h2 := congrArg Prod.fst hpair
      have hframe := execute_steps_loop_ref_frame reg
        (get_workflow_definition wt) original_ref (original_ref + 1) fuel h
        { results := [], completed := [], log := [] } h3 st (by omega) hloop
      have := hframe.2 original_ref (by omega)
      rw [← hh]
      exact this

/-- The caller's heap for the C10 witness: one context dict at address 0. -/
def c10_heap0 : Heap :=
  { dicts := fun i => if i = 0 then [("city", Value.str "Austin")] else [],
    size := 1 }

/-- Outcome of the C10 witness run. -/
def c10_pair : Heap × WorkflowResult :=
  (execute_workflow_ref reg_all WorkflowType.REAL_ESTATE_DEVELOPMENT
    c10_heap0 0 4).getD (c10_heap0, default_workflow_result)

/-- C10 witness: the theorem applied to a concrete three-step run whose
caller context lives at address 0. -/
theorem caller_context_never_mutated_witness :
    (execute_workflow_ref reg_all WorkflowType.REAL_ESTATE_DEVELOPMENT
      c10_heap0 0 4 = some (c10_pair.1, c10_pair.2)) ∧
    c10_pair.1.get 0 = c10_heap0.get 0 :=
  ⟨rfl, caller_context_never_mutated reg_all WorkflowType.REAL_ESTATE_DEVELOPMENT
    c10_heap0 0 4 c10_pair.1 c10_pair.2 (by decide) rfl⟩

end UnderratedVision
